import Mathlib

/-!
Verification of the styling-rule extraction core (`src/vector.py`).

Strings are modelled as `List Char` (`Str`).  Python's ASCII-relevant string
operations (`strip`, `lower`, `capitalize`, whitespace collapsing, word-boundary
regex substitution, substring containment) are embedded as executable Lean
functions.  Floating point `round(x, 2)` is modelled as exact rational
round-half-to-even at two decimals, which agrees with CPython on every value
reachable from `compute_confidence` (multiples of 1/12 in [0, 1], none of which
sits close enough to a two-decimal tie for double rounding to differ).
-/

abbrev Str := List Char

/-- Convert a string literal to its character list. -/
def str (s : String) : Str := s.data

/-- Python whitespace test for the ASCII characters produced by the pipeline:
space, tab, newline, carriage return, vertical tab, form feed. -/
def isSpace (c : Char) : Bool :=
  c.toNat = 32 || c.toNat = 9 || c.toNat = 10 || c.toNat = 13 ||
    c.toNat = 11 || c.toNat = 12

/-- Regex `\w` (ASCII): letters, digits and underscore. -/
def isWordChar (c : Char) : Bool :=
  (48 ≤ c.toNat && c.toNat ≤ 57) || (65 ≤ c.toNat && c.toNat ≤ 90) ||
    (97 ≤ c.toNat && c.toNat ≤ 122) || c.toNat = 95

/-- Python `str.lower()` (ASCII case mapping, per character). -/
def lower (s : Str) : Str := s.map Char.toLower

/-- Python `str.strip()`: drop whitespace from both ends. -/
def strip (s : Str) : Str := (s.dropWhile isSpace).rdropWhile isSpace

/-- Python `str.capitalize()`: first character upper-cased, rest lower-cased. -/
def capitalizeStr : Str → Str
  | [] => []
  | c :: cs => Char.toUpper c :: cs.map Char.toLower

/-- Substring test: `hasSub p s` is `true` iff `p` occurs contiguously in `s`
(Python's `p in s`). -/
def hasSub (p : Str) : Str → Bool
  | [] => p.isPrefixOf []
  | c :: cs => p.isPrefixOf (c :: cs) || hasSub p cs

/-- Model of re.sub with the whitespace-run pattern: every maximal whitespace
run becomes one single space. -/
def collapseWS : Str → Str
  | [] => []
  | [c] => if isSpace c then [' '] else [c]
  | c :: d :: t =>
    if isSpace c then
      (if isSpace d then collapseWS (d :: t) else ' ' :: collapseWS (d :: t))
    else c :: collapseWS (d :: t)

/-- Accumulator for the word count: number of maximal non-whitespace runs. -/
def countWordsAux : Bool → Str → Nat
  | _, [] => 0
  | inWord, c :: cs =>
    (if !isSpace c && !inWord then 1 else 0) + countWordsAux (!isSpace c) cs

/-- Python `len(s.split())`. -/
def countWords (s : Str) : Nat := countWordsAux false s

/-- A word boundary to the right: end of string or a non-word character. -/
def boundaryAfter : Str → Bool
  | [] => true
  | c :: _ => !isWordChar c

/-- Scanner for word-boundary regex substitution with a pattern that starts and
ends in word characters (true of `baggy`, `loose`, `slim-fit`).  `prevW` is the
wordness of the previously scanned character (initially false, matching `\b` at
the string start for word-initial patterns); `skip` counts pattern characters
still to consume after a replacement has been emitted. -/
def wbSubAux (p r : Str) : Nat → Bool → Str → Str
  | _, _, [] => []
  | 0, prevW, c :: cs =>
    if p ≠ [] ∧ prevW = false ∧ p.isPrefixOf (c :: cs) ∧
        boundaryAfter (List.drop p.length (c :: cs)) then
      r ++ wbSubAux p r (p.length - 1) (isWordChar c) cs
    else
      c :: wbSubAux p r 0 (isWordChar c) cs
  | skip + 1, _, c :: cs => wbSubAux p r skip (isWordChar c) cs

/-- Word-boundary regex substitution of pattern p by replacement r in s, for a
pattern with word-character ends. -/
def wbSub (p r s : Str) : Str := wbSubAux p r 0 false s

/-- The three synonym normalizations of `canonicalize_sentence`, in source
order: baggy→oversized, loose→relaxed, slim-fit→slim. -/
def substituteAll (s : Str) : Str :=
  wbSub (str "slim-fit") (str "slim")
    (wbSub (str "loose") (str "relaxed")
      (wbSub (str "baggy") (str "oversized") s))

-- Controlled vocabulary (src/vector.py lines 44-58).

def FIT_TERMS : List Str :=
  [str "oversized", str "relaxed", str "slim", str "fitted", str "tailored"]

def COLOR_TERMS : List Str :=
  [str "white", str "black", str "neutral", str "beige", str "earthy",
   str "brown", str "olive"]

def STYLE_TERMS : List Str :=
  [str "classic", str "casual", str "formal", str "athleisure", str "minimal",
   str "polished"]

def ITEM_TERMS : List Str :=
  [str "t-shirt", str "tee", str "shirt", str "jeans", str "denim", str "pants",
   str "trousers", str "skirt", str "dress", str "jacket", str "blazer",
   str "coat", str "sweater", str "joggers"]

def OCCASION_TERMS : List Str :=
  [str "casual", str "everyday", str "office", str "formal", str "weekend"]

def LAYER_TERMS : List Str := [str "jacket", str "blazer", str "coat"]

def PAIRING_VERBS :=
  [str "pair", str "combine", str "match", str "wear", str "layer", str "add"]

def ACCESSORY_TERMS : List Str :=
  [str "necklace", str "jewelry", str "earrings", str "bracelet", str "choker",
   str "ring", str "hat", str "scarf", str "accessories"]

/-- Function contains_any (src/vector.py lines 113-115): lower-case the
text and test each term for substring containment. -/
def contains_any (terms : List Str) (text : Str) : Bool :=
  terms.any (fun term => hasSub term (lower text))

/-- Heading removal (src/vector.py lines 125-128): if the sentence contains a
colon and at most 6 words precede the first colon, keep only the stripped text
after that colon. -/
def stripHeading (s : Str) : Str :=
  if ':' ∈ s then
    (if countWords (s.takeWhile (fun c => c ≠ ':')) ≤ 6 then
      strip ((s.dropWhile (fun c => c ≠ ':')).tail)
    else s)
  else s

/-- The acceptance test at the end of `canonicalize_sentence` (lines 143-151):
accept iff a pairing verb or a layering term co-occurs with an item term;
on acceptance capitalize and append a terminal period. -/
def acceptStage (s : Str) : Str :=
  if contains_any PAIRING_VERBS s ∧ contains_any ITEM_TERMS s then
    capitalizeStr s ++ ['.']
  else if contains_any LAYER_TERMS s ∧ contains_any ITEM_TERMS s then
    capitalizeStr s ++ ['.']
  else []

/-- Function canonicalize_sentence (src/vector.py lines 121-151). -/
def canonicalize_sentence (sentence : Str) : Str :=
  let s := lower (stripHeading (strip sentence))
  if contains_any ACCESSORY_TERMS s ∧ ¬ contains_any ITEM_TERMS s then []
  else acceptStage (strip (collapseWS (substituteAll s)))

/-- Lexicographic comparison of strings by code point (Python `<` on `str`). -/
def strLt : Str → Str → Bool
  | [], [] => false
  | [], _ :: _ => true
  | _ :: _, [] => false
  | a :: as, b :: bs => if a < b then true else if b < a then false else strLt as bs

/-- Ordered duplicate-dropping insertion; folding it realizes Python's
`sorted(set(xs))`. -/
def insertStr (x : Str) : List Str → List Str
  | [] => [x]
  | y :: ys =>
    if strLt x y then x :: y :: ys
    else if strLt y x then y :: insertStr x ys
    else y :: ys

/-- Python `sorted(set(xs))` for a list of strings. -/
def sortedDedup (l : List Str) : List Str := l.foldr insertStr []

/-- The fixed-shape metadata dictionary of `extract_metadata`. -/
structure Metadata where
  fit : List Str
  color : List Str
  style : List Str
  items : List Str
  occasion : List Str
  layering : Bool
deriving DecidableEq

/-- Function extract_metadata (src/vector.py lines 157-208): substring-match every
vocabulary against the lower-cased text, apply the implicit inference rules,
then sort and deduplicate every list. -/
def extract_metadata (text : Str) : Metadata :=
  let t := lower text
  let fit0 := FIT_TERMS.filter (fun term => hasSub term t)
  let color0 := COLOR_TERMS.filter (fun term => hasSub term t)
  let style0 := STYLE_TERMS.filter (fun term => hasSub term t)
  let items0 := ITEM_TERMS.filter (fun term => hasSub term t)
  let occasion0 := OCCASION_TERMS.filter (fun term => hasSub term t)
  let layering0 := contains_any LAYER_TERMS t
  let style1 := style0 ++
    (if str "blazer" ∈ items0 then [str "classic"] else []) ++
    (if str "denim" ∈ items0 ∨ str "jeans" ∈ items0 then [str "classic"] else []) ++
    (if str "white" ∈ color0 ∨ str "neutral" ∈ color0 then [str "minimal"] else []) ++
    (if str "tailored" ∈ fit0 then [str "polished"] else [])
  let layering1 := layering0 || str "blazer" ∈ items0
  { fit := sortedDedup fit0
    color := sortedDedup color0
    style := sortedDedup style1
    items := sortedDedup items0
    occasion := sortedDedup occasion0
    layering := layering1 }

/-- Round `a / b` (with `b > 0`) to the nearest integer, ties to even
(CPython's rounding mode), on integers so that it evaluates by reduction. -/
def rhe (a b : ℤ) : ℤ :=
  let d := Int.fdiv a b
  let r := a - d * b
  if 2 * r < b then d
  else if 2 * r > b then d + 1
  else if d % 2 = 0 then d else d + 1

/-- Python `round(q, 2)` on the exact rational value: `q * 100 =
(q.num * 100) / q.den` rounded half-to-even, then divided by 100. -/
def roundPy2 (q : ℚ) : ℚ := mkRat (rhe (q.num * 100) (q.den : ℤ)) 100

/-- Python `min(x, y)` on rationals. -/
def ratMin (x y : ℚ) : ℚ := if x ≤ y then x else y

/-- Twice the raw score of `compute_confidence` (src/vector.py lines 211-217),
as an integer.  The source accumulates 2, 1, 1, 1, 1 and 0.5 in a float
`score`; every value is a multiple of ½, so the accumulation is tracked
exactly as the integer `2 * score` (adding 4, 2, 2, 2, 2 and 1). -/
def scoreTwice (meta : Metadata) : ℤ :=
  let s : ℤ := 0
  let s := if meta.items ≠ [] then s + 4 else s
  let s := if meta.fit ≠ [] then s + 2 else s
  let s := if meta.color ≠ [] then s + 2 else s
  let s := if meta.style ≠ [] then s + 2 else s
  let s := if meta.occasion ≠ [] then s + 2 else s
  let s := if meta.layering then s + 1 else s
  s

/-- Function compute_confidence (src/vector.py lines 210-218):
`round(min(score / 6, 1), 2)`, where `score / 6 = (2 * score) / 12` is the
exact rational `mkRat (scoreTwice meta) 12`. -/
def compute_confidence (meta : Metadata) : ℚ :=
  roundPy2 (ratMin (mkRat (scoreTwice meta) 12) 1)

/-- Terminal punctuation of the sentence splitter. -/
def isTermPunct (c : Char) : Bool := c = '.' || c = '!' || c = '?'

/-- Model of re.split at terminal punctuation followed by whitespace, on text
whose whitespace runs have already
been collapsed to single spaces (which `split_sentences` guarantees): cut after
terminal punctuation followed by a space, consuming the space. -/
def splitAfterPunct : Str → List Str
  | [] => [[]]
  | [c] => [[c]]
  | c :: d :: t =>
    if isTermPunct c && isSpace d then [c] :: splitAfterPunct t
    else
      match splitAfterPunct (d :: t) with
      | [] => [[c]]
      | seg :: rest => (c :: seg) :: rest

/-- Function split_sentences (src/vector.py lines 109-111): collapse whitespace, split
after terminal punctuation, keep trimmed units longer than 12 characters. -/
def split_sentences (text : Str) : List Str :=
  let t := strip (collapseWS (text.map (fun c => if c = '\n' then ' ' else c)))
  ((splitAfterPunct t).map strip).filter (fun s => s.length > 12)

/-- An emitted styling-rule record.  The source also stores a random
`uuid.uuid4()` string in an `id` field; being nondeterministic I/O it is not
modelled, and no claim mentions it. -/
structure Record where
  source : Str
  canonical_text : Str
  metadata : Metadata
  confidence : ℚ
  raw_text : Str
deriving DecidableEq

/-- The per-sentence loop of `build_records` (src/vector.py lines 224-258),
threading the shared `seen` set (modelled as a list of lower-cased canonical
texts) and returning the emitted records together with the final seen set. -/
def buildLoop (source : Str) : List Str → List Str → List Record × List Str
  | [], seen => ([], seen)
  | sent :: rest, seen =>
    let canonical := canonicalize_sentence sent
    if canonical = [] then buildLoop source rest seen
    else
      let meta := extract_metadata canonical
      if meta.items = [] then buildLoop source rest seen
      else
        let conf := compute_confidence meta
        if conf < mkRat 9 20 then buildLoop source rest seen
        else
          if lower canonical ∈ seen then buildLoop source rest seen
          else
            let res := buildLoop source rest (lower canonical :: seen)
            ({ source := source, canonical_text := canonical, metadata := meta,
               confidence := conf, raw_text := sent } :: res.1, res.2)

/-- Function build_records (src/vector.py lines 224-258). -/
def build_records (source text : Str) (seen : List Str) :
    List Record × List Str :=
  buildLoop source (split_sentences text) seen

/-- The per-source loop of `main` (src/vector.py lines 264-275): process every
source with the one shared seen set and concatenate the emitted records. -/
def runAll : List (Str × Str) → List Str → List Record × List Str
  | [], seen => ([], seen)
  | (src, txt) :: rest, seen =>
    let res := build_records src txt seen
    let res2 := runAll rest res.2
    (res.1 ++ res2.1, res2.2)

/-- Twice the raw score as a function of the six emptiness/boolean flags only
(`compute_confidence` depends on the metadata only through these flags). -/
def scoreFlagsTwice (i f c st o l : Bool) : ℤ :=
  (if i then 4 else 0) + (if f then 2 else 0) + (if c then 2 else 0) +
    (if st then 2 else 0) + (if o then 2 else 0) + (if l then 1 else 0)

/-- Confidence as a function of the six flags. -/
def confFlags (i f c st o l : Bool) : ℚ :=
  roundPy2 (ratMin (mkRat (scoreFlagsTwice i f c st o l) 12) 1)

/-- The raw score exactly as the specification words it: start at 0; +2 if
items non-empty; +1 each for fit, color, style, occasion non-empty; +0.5 if
layering.  Written independently of `compute_confidence` for the refinement
claim C5. -/
def spec_raw_score (m : Metadata) : ℚ :=
  (if m.items ≠ [] then 2 else 0) + (if m.fit ≠ [] then 1 else 0) +
    (if m.color ≠ [] then 1 else 0) + (if m.style ≠ [] then 1 else 0) +
    (if m.occasion ≠ [] then 1 else 0) + (if m.layering then 1/2 else 0)

/-- The five list-valued metadata categories. -/
inductive Category
  | fit | color | style | items | occasion
deriving DecidableEq

/-- The list stored in a metadata category. -/
def catList (m : Metadata) : Category → List Str
  | .fit => m.fit
  | .color => m.color
  | .style => m.style
  | .items => m.items
  | .occasion => m.occasion

/-- Add a term to one metadata category. -/
def addTerm (m : Metadata) : Category → Str → Metadata
  | .fit, t => { m with fit := t :: m.fit }
  | .color, t => { m with color := t :: m.color }
  | .style, t => { m with style := t :: m.style }
  | .items, t => { m with items := t :: m.items }
  | .occasion, t => { m with occasion := t :: m.occasion }

/-- A metadata value with every category populated but `layering = false`. -/
def fullNoLayerMeta : Metadata :=
  { fit := [str "tailored"], color := [str "white"], style := [str "classic"],
    items := [str "jeans"], occasion := [str "casual"], layering := false }

/-- A default record, used only as the fallback of `List.getD`. -/
def dummyRec : Record :=
  { source := [], canonical_text := [],
    metadata := { fit := [], color := [], style := [], items := [],
                  occasion := [], layering := false },
    confidence := 0, raw_text := [] }

/-- Distinctness of lower-cased canonical texts, the relation of the global
deduplication claims. -/
def DistinctCanon (r1 r2 : Record) : Prop :=
  lower r1.canonical_text ≠ lower r2.canonical_text

/-- The fully processed text of `canonicalize_sentence` just before the
acceptance test: heading-stripped, lower-cased, synonym-substituted,
whitespace-collapsed and trimmed. -/
def canonCore (sentence : Str) : Str :=
  strip (collapseWS (substituteAll (lower (stripHeading (strip sentence)))))

/-- Every character is fixed by lower-casing. -/
def LowerInv (s : Str) : Prop := ∀ c ∈ s, Char.toLower c = c

/-- Every whitespace character is a plain space. -/
def PlainWS (s : Str) : Prop := ∀ c ∈ s, isSpace c = true → c = ' '

/-- No two adjacent whitespace characters. -/
def NoTwoWS (s : Str) : Prop :=
  List.Chain' (fun a b => isSpace a = true → isSpace b = false) s

/-- The first character, if any, is not whitespace. -/
def HeadNoWS (s : Str) : Prop := ∀ c, s.head? = some c → isSpace c = false

/-- The last character, if any, is not whitespace. -/
def LastNoWS (s : Str) : Prop := ∀ c, s.getLast? = some c → isSpace c = false

/-! ### Confidence scoring -/

theorem compute_confidence_eq_confFlags (m : Metadata) :
    compute_confidence m =
      confFlags (!m.items.isEmpty) (!m.fit.isEmpty) (!m.color.isEmpty)
        (!m.style.isEmpty) (!m.occasion.isEmpty) m.layering := by
  unfold compute_confidence confFlags scoreTwice scoreFlagsTwice
  cases hi : m.items <;> cases hf : m.fit <;>
    cases hc : m.color <;> cases hs : m.style <;>
    cases ho : m.occasion <;> cases hl : m.layering <;>
    simp [hi, hf, hc, hs, ho, hl]

theorem confFlags_bounds :
    ∀ i f c st o l : Bool, 0 ≤ confFlags i f c st o l ∧ confFlags i f c st o l ≤ 1 := by
  decide

theorem scoreTwice_cast_eq (m : Metadata) :
    mkRat (scoreTwice m) 12 = spec_raw_score m / 6 := by
  unfold scoreTwice spec_raw_score
  cases hi : m.items <;> cases hf : m.fit <;>
    cases hc : m.color <;> cases hs : m.style <;>
    cases ho : m.occasion <;> cases hl : m.layering <;>
    simp [hi, hf, hc, hs, ho, hl, Rat.mkRat_eq_divInt, Rat.divInt_eq_div] <;>
    norm_num

/-- C5: `compute_confidence` computes `round(min(raw/6, 1), 2)` for the raw
score described by the spec, and its value always lies in `[0, 1]`. -/
theorem C5_confidence_formula_and_bounds (m : Metadata) :
    compute_confidence m = roundPy2 (ratMin (spec_raw_score m / 6) 1) ∧
      0 ≤ compute_confidence m ∧ compute_confidence m ≤ 1 := by
  refine ⟨?_, ?_, ?_⟩
  · unfold compute_confidence
    rw [scoreTwice_cast_eq]
  · rw [compute_confidence_eq_confFlags]
    exact (confFlags_bounds _ _ _ _ _ _).1
  · rw [compute_confidence_eq_confFlags]
    exact (confFlags_bounds _ _ _ _ _ _).2

/-- C6 counterexample: with every category populated but `layering = false`
the raw score is 6, `min(6/6, 1) = 1`, and the confidence is exactly 1.0 — so
the ceiling is reached without layering, refuting the claim that it is
reachable only when layering is set. -/
theorem C6_counterexample_full_without_layering :
    fullNoLayerMeta.layering = false ∧
      ¬ compute_confidence fullNoLayerMeta < 1 := by decide

theorem confFlags_eq_one_iff :
    ∀ i f c st o l : Bool,
      confFlags i f c st o l = 1 ↔ (i && f && c && st && o) = true := by
  decide

/-- C6 amended: the ceiling 1.0 is reached exactly when all five list-valued
categories are populated; layering is not required (raw score 6 already gives
`min(6/6, 1) = 1`). -/
theorem C6_amended_ceiling_iff_all_categories (m : Metadata) :
    compute_confidence m = 1 ↔
      (m.fit ≠ [] ∧ m.color ≠ [] ∧ m.style ≠ [] ∧ m.items ≠ [] ∧
        m.occasion ≠ []) := by
  rw [compute_confidence_eq_confFlags, confFlags_eq_one_iff]
  cases hi : m.items <;> cases hf : m.fit <;>
    cases hc : m.color <;> cases hs : m.style <;>
    cases ho : m.occasion <;> simp [hi, hf, hc, hs, ho]

theorem confFlags_mono_flag :
    ∀ i f c st o l : Bool,
      confFlags i f c st o l ≤ confFlags i true c st o l ∧
      confFlags i f c st o l ≤ confFlags i f true st o l ∧
      confFlags i f c st o l ≤ confFlags i f c true o l ∧
      confFlags i f c st o l ≤ confFlags true f c st o l ∧
      confFlags i f c st o l ≤ confFlags i f c st true l := by
  decide

/-- C7: adding a previously-absent term to any of the five list-valued
categories never decreases the confidence. -/
theorem C7_confidence_monotone (m : Metadata) (cat : Category) (term : Str)
    (hterm : term ∉ catList m cat) :
    compute_confidence m ≤ compute_confidence (addTerm m cat term) := by
  clear hterm
  rw [compute_confidence_eq_confFlags, compute_confidence_eq_confFlags]
  cases cat with
  | fit => exact (confFlags_mono_flag _ _ _ _ _ _).1
  | color => exact (confFlags_mono_flag _ _ _ _ _ _).2.1
  | style => exact (confFlags_mono_flag _ _ _ _ _ _).2.2.1
  | items => exact (confFlags_mono_flag _ _ _ _ _ _).2.2.2.1
  | occasion => exact (confFlags_mono_flag _ _ _ _ _ _).2.2.2.2

/-- C7 witness: adding "jeans" to the empty items category raises the
confidence from 0 to 0.33. -/
theorem C7_witness :
    str "jeans" ∉
      catList { fit := [], color := [], style := [], items := [],
                occasion := [], layering := false } Category.items ∧
    compute_confidence
        { fit := [], color := [], style := [], items := [], occasion := [],
          layering := false } ≤
      compute_confidence
        (addTerm { fit := [], color := [], style := [], items := [],
                   occasion := [], layering := false } Category.items
          (str "jeans")) :=
  ⟨by decide,
   C7_confidence_monotone _ Category.items (str "jeans") (by decide)⟩

/-! ### Record building -/

theorem buildLoop_invariant (source : Str) (sents : List Str) :
    ∀ seen : List Str,
      (∀ r ∈ (buildLoop source sents seen).1,
          r.metadata.items ≠ [] ∧
          r.confidence = compute_confidence r.metadata ∧
          ¬ r.confidence < mkRat 9 20 ∧
          lower r.canonical_text ∈ (buildLoop source sents seen).2 ∧
          lower r.canonical_text ∉ seen) ∧
      (∀ k ∈ seen, k ∈ (buildLoop source sents seen).2) ∧
      List.Pairwise DistinctCanon (buildLoop source sents seen).1 := by
  induction sents with
  | nil => intro seen; simp [buildLoop]
  | cons sent rest ih =>
    intro seen
    by_cases h1 : canonicalize_sentence sent = []
    · simpa [buildLoop, h1] using ih seen
    · by_cases h2 : (extract_metadata (canonicalize_sentence sent)).items = []
      · simpa [buildLoop, h1, h2] using ih seen
      · by_cases h3 : compute_confidence (extract_metadata (canonicalize_sentence sent)) < mkRat 9 20
        · simpa [buildLoop, h1, h2, h3] using ih seen
        · by_cases h4 : lower (canonicalize_sentence sent) ∈ seen
          · simpa [buildLoop, h1, h2, h3, h4] using ih seen
          · have heq : buildLoop source (sent :: rest) seen =
                ({ source := source, canonical_text := canonicalize_sentence sent,
                   metadata := extract_metadata (canonicalize_sentence sent),
                   confidence := compute_confidence (extract_metadata (canonicalize_sentence sent)),
                   raw_text := sent } ::
                    (buildLoop source rest (lower (canonicalize_sentence sent) :: seen)).1,
                 (buildLoop source rest (lower (canonicalize_sentence sent) :: seen)).2) := by
              simp [buildLoop, h1, h2, h3, h4]
            have ihc := ih (lower (canonicalize_sentence sent) :: seen)
            rw [heq]
            refine ⟨?_, ?_, ?_⟩
            · intro r hr
              rcases List.mem_cons.mp hr with hhead | htail
              · subst hhead
                refine ⟨h2, rfl, h3, ?_, h4⟩
                exact ihc.2.1 _ (List.mem_cons_self _ _)
              · have h := ihc.1 r htail
                exact ⟨h.1, h.2.1, h.2.2.1, h.2.2.2.1,
                  fun hmem => h.2.2.2.2 (List.mem_cons_of_mem _ hmem)⟩
            · intro k hk
              exact ihc.2.1 k (List.mem_cons_of_mem _ hk)
            · refine List.pairwise_cons.mpr ⟨?_, ihc.2.2⟩
              intro r hr
              have h := ihc.1 r hr
              have hne : lower r.canonical_text ≠ lower (canonicalize_sentence sent) := by
                intro hcontra
                exact h.2.2.2.2 (hcontra ▸ List.mem_cons_self _ _)
              exact fun hcontra => hne hcontra.symm

theorem build_records_invariant (source text : Str) (seen : List Str) :
    (∀ r ∈ (build_records source text seen).1,
        r.metadata.items ≠ [] ∧
        r.confidence = compute_confidence r.metadata ∧
        ¬ r.confidence < mkRat 9 20 ∧
        lower r.canonical_text ∈ (build_records source text seen).2 ∧
        lower r.canonical_text ∉ seen) ∧
      (∀ k ∈ seen, k ∈ (build_records source text seen).2) ∧
      List.Pairwise DistinctCanon (build_records source text seen).1 :=
  buildLoop_invariant source (split_sentences text) seen

/-- C1: every record emitted by `build_records` has non-empty metadata items
and confidence at least 0.45. -/
theorem C1_emitted_items_nonempty_conf_ge (source text : Str)
    (seen : List Str) (r : Record)
    (hr : r ∈ (build_records source text seen).1) :
    r.metadata.items ≠ [] ∧ 9/20 ≤ r.confidence := by
  have h := (build_records_invariant source text seen).1 r hr
  refine ⟨h.1, ?_⟩
  have h20 : mkRat 9 20 = (9 : ℚ)/20 := by
    rw [Rat.mkRat_eq_divInt, Rat.divInt_eq_div]; norm_num
  have := h.2.2.1
  rw [h20] at this
  exact not_lt.mp this

/-- C1 witness: a concrete run emitting one record. -/
theorem C1_witness :
    ((build_records (str "s") (str "Wear baggy jeans today.") []).1.getD 0
        dummyRec).metadata.items ≠ [] ∧
      9/20 ≤ ((build_records (str "s") (str "Wear baggy jeans today.") []).1.getD 0
        dummyRec).confidence :=
  C1_emitted_items_nonempty_conf_ge (str "s") (str "Wear baggy jeans today.") []
    _ (by decide)

theorem runAll_invariant (sources : List (Str × Str)) :
    ∀ seen : List Str,
      (∀ r ∈ (runAll sources seen).1,
          lower r.canonical_text ∈ (runAll sources seen).2 ∧
          lower r.canonical_text ∉ seen) ∧
      (∀ k ∈ seen, k ∈ (runAll sources seen).2) ∧
      List.Pairwise DistinctCanon (runAll sources seen).1 := by
  induction sources with
  | nil => intro seen; simp [runAll]
  | cons sc rest ih =>
    intro seen
    obtain ⟨src, txt⟩ := sc
    have hb := build_records_invariant src txt seen
    have ihr := ih (build_records src txt seen).2
    have heq : runAll ((src, txt) :: rest) seen =
        ((build_records src txt seen).1 ++
            (runAll rest (build_records src txt seen).2).1,
          (runAll rest (build_records src txt seen).2).2) := by
      simp [runAll]
    rw [heq]
    refine ⟨?_, ?_, ?_⟩
    · intro r hr
      rcases List.mem_append.mp hr with hl | hr2
      · have h := hb.1 r hl
        exact ⟨ihr.2.1 _ h.2.2.2.1, h.2.2.2.2⟩
      · have h := ihr.1 r hr2
        exact ⟨h.1, fun hmem => h.2 (hb.2.1 _ hmem)⟩
    · intro k hk
      exact ihr.2.1 k (hb.2.1 k hk)
    · refine List.pairwise_append.mpr ⟨hb.2.2, ihr.2.2, ?_⟩
      intro r1 h1 r2 h2
      have hin := (hb.1 r1 h1).2.2.2.1
      have hout := (ihr.1 r2 h2).2
      exact fun hcontra => hout (hcontra ▸ hin)

/-- C2: across all sources processed in one run with the shared seen set, the
lower-cased canonical texts of the emitted records are pairwise distinct. -/
theorem C2_global_cross_source_dedup (sources : List (Str × Str))
    (seen : List Str) :
    List.Pairwise DistinctCanon (runAll sources seen).1 :=
  (runAll_invariant sources seen).2.2

theorem confFlags_half_floor :
    ∀ i f c st o l : Bool, i = true →
      ¬ confFlags i f c st o l < mkRat 9 20 →
      mkRat 1 2 ≤ confFlags i f c st o l := by
  decide

/-- C10: every emitted record in fact has confidence at least 0.5: items must
be non-empty, and the smallest raw score that passes the 0.45 cutoff is 3
(raw 2.5 — items plus layering alone — rounds to 0.42 < 0.45), so 0.45 is
never attained with equality. -/
theorem C10_confidence_floor_is_half :
    (∀ (source text : Str) (seen : List Str) (r : Record),
        r ∈ (build_records source text seen).1 → 1/2 ≤ r.confidence) ∧
      roundPy2 (ratMin (mkRat 5 12) 1) = 21/50 ∧ (21 : ℚ)/50 < 9/20 := by
  refine ⟨?_, ?_, by norm_num⟩
  · intro source text seen r hr
    have h := (build_records_invariant source text seen).1 r hr
    have hflag : (!r.metadata.items.isEmpty) = true := by
      cases hitems : r.metadata.items with
      | nil => exact absurd hitems h.1
      | cons a as => simp
    have hconf := h.2.1
    have hlt := h.2.2.1
    rw [hconf, compute_confidence_eq_confFlags] at hlt ⊢
    have := confFlags_half_floor _ _ _ _ _ _ hflag hlt
    calc (1 : ℚ)/2 = mkRat 1 2 := by
          rw [Rat.mkRat_eq_divInt, Rat.divInt_eq_div]; norm_num
      _ ≤ _ := this
  · have h : roundPy2 (ratMin (mkRat 5 12) 1) = mkRat 21 50 := by decide
    rw [h, Rat.mkRat_eq_divInt, Rat.divInt_eq_div]; norm_num

/-- C10 witness: the concrete record of the concrete run has confidence at
least 0.5, and the cited arithmetic facts hold. -/
theorem C10_witness :
    1/2 ≤ ((build_records (str "s") (str "Wear baggy jeans today.") []).1.getD 0
        dummyRec).confidence :=
  C10_confidence_floor_is_half.1 (str "s") (str "Wear baggy jeans today.") []
    _ (by decide)

/-! ### Sortedness of metadata lists -/

theorem strLt_trans :
    ∀ {x y z : Str}, strLt x y = true → strLt y z = true → strLt x z = true := by
  intro x
  induction x with
  | nil =>
    intro y z hxy hyz
    cases y with
    | nil => simp [strLt] at hxy
    | cons b bs =>
      cases z with
      | nil => simp [strLt] at hyz
      | cons c cs => simp [strLt]
  | cons a as ihx =>
    intro y z hxy hyz
    cases y with
    | nil => simp [strLt] at hxy
    | cons b bs =>
      cases z with
      | nil => simp [strLt] at hyz
      | cons c cs =>
        simp only [strLt] at hxy hyz ⊢
        by_cases hab : a < b
        · by_cases hbc : b < c
          · simp [lt_trans hab hbc]
          · by_cases hcb : c < b
            · simp [hbc, hcb] at hyz
            · have hbc' : b = c := le_antisymm (not_lt.mp hcb) (not_lt.mp hbc)
              subst hbc'
              simp [hab]
        · by_cases hba : b < a
          · simp [hab, hba] at hxy
          · have hab' : a = b := le_antisymm (not_lt.mp hba) (not_lt.mp hab)
            subst hab'
            simp only [lt_irrefl, if_false] at hxy
            by_cases hac : a < c
            · simp [hac]
            · by_cases hca : c < a
              · simp [hac, hca] at hyz
              · simp only [hac, hca, if_false] at hyz ⊢
                exact ihx hxy hyz

theorem mem_insertStr {z x : Str} :
    ∀ {l : List Str}, z ∈ insertStr x l → z = x ∨ z ∈ l := by
  intro l
  induction l with
  | nil => simp [insertStr]
  | cons y ys ih =>
    simp only [insertStr]
    by_cases h1 : strLt x y = true
    · simp only [h1, if_true]
      intro h
      rcases List.mem_cons.mp h with rfl | h2
      · exact Or.inl rfl
      · exact Or.inr h2
    · by_cases h2 : strLt y x = true
      · simp only [h1, h2, if_true, if_false]
        intro h
        rcases List.mem_cons.mp h with rfl | h3
        · exact Or.inr (List.mem_cons_self _ _)
        · rcases ih h3 with rfl | h4
          · exact Or.inl rfl
          · exact Or.inr (List.mem_cons_of_mem _ h4)
      · simp only [h1, h2, if_false]
        exact fun h => Or.inr h

theorem pairwise_insertStr {x : Str} :
    ∀ {l : List Str}, List.Pairwise (fun a b => strLt a b = true) l →
      List.Pairwise (fun a b => strLt a b = true) (insertStr x l) := by
  intro l
  induction l with
  | nil => simp [insertStr]
  | cons y ys ih =>
    intro h
    rcases List.pairwise_cons.mp h with ⟨hy, hys⟩
    simp only [insertStr]
    by_cases h1 : strLt x y = true
    · simp only [h1, if_true]
      refine List.pairwise_cons.mpr ⟨?_, h⟩
      intro z hz
      rcases List.mem_cons.mp hz with rfl | h2
      · exact h1
      · exact strLt_trans h1 (hy z h2)
    · by_cases h2 : strLt y x = true
      · simp only [h1, h2, if_true, if_false]
        refine List.pairwise_cons.mpr ⟨?_, ih hys⟩
        intro z hz
        rcases mem_insertStr hz with rfl | h3
        · exact h2
        · exact hy z h3
      · simp only [h1, h2, if_false]
        exact h

theorem pairwise_sortedDedup (l : List Str) :
    List.Pairwise (fun a b => strLt a b = true) (sortedDedup l) := by
  unfold sortedDedup
  induction l with
  | nil => simp
  | cons x xs ih => exact pairwise_insertStr ih

/-- C9: every list-valued attribute of the metadata returned by
`extract_metadata` — after the implicit inference rules have run — is strictly
sorted: ascending and duplicate-free. -/
theorem C9_metadata_lists_sorted_dedup (text : Str) :
    List.Pairwise (fun a b => strLt a b = true) (extract_metadata text).fit ∧
    List.Pairwise (fun a b => strLt a b = true) (extract_metadata text).color ∧
    List.Pairwise (fun a b => strLt a b = true) (extract_metadata text).style ∧
    List.Pairwise (fun a b => strLt a b = true) (extract_metadata text).items ∧
    List.Pairwise (fun a b => strLt a b = true) (extract_metadata text).occasion :=
  ⟨pairwise_sortedDedup _, pairwise_sortedDedup _, pairwise_sortedDedup _,
   pairwise_sortedDedup _, pairwise_sortedDedup _⟩

/-! ### Heading strip, concrete (C8) -/

/-- C8: the "Tip:" prefix (one word before the colon, at most 6) is discarded,
the canonical text is exactly the canonicalization of the text after the colon,
and the extracted metadata has layering set with style containing both
"classic" and "polished". -/
theorem C8_heading_strip_example :
    countWords (str "Tip") ≤ 6 ∧
    canonicalize_sentence (str "Tip: wear a tailored blazer over jeans.") =
      canonicalize_sentence (str "wear a tailored blazer over jeans.") ∧
    canonicalize_sentence (str "Tip: wear a tailored blazer over jeans.") =
      str "Wear a tailored blazer over jeans.." ∧
    (extract_metadata (canonicalize_sentence
        (str "Tip: wear a tailored blazer over jeans."))).layering = true ∧
    str "classic" ∈ (extract_metadata (canonicalize_sentence
        (str "Tip: wear a tailored blazer over jeans."))).style ∧
    str "polished" ∈ (extract_metadata (canonicalize_sentence
        (str "Tip: wear a tailored blazer over jeans."))).style := by
  decide

/-! ### Character-level lemmas -/

theorem charEq_of_toNat {a b : Char} (h : a.toNat = b.toNat) : a = b :=
  Char.eq_of_val_eq (UInt32.toNat.inj h)

theorem toNat_toLower (c : Char) :
    (Char.toLower c).toNat =
      if 65 ≤ c.toNat ∧ c.toNat ≤ 90 then c.toNat + 32 else c.toNat := by
  unfold Char.toLower
  by_cases h : 65 ≤ c.toNat ∧ c.toNat ≤ 90
  · have hv : (c.toNat + 32).isValidChar := Or.inl (by omega)
    rw [if_pos ⟨h.1, h.2⟩, if_pos h]
    unfold Char.ofNat
    rw [dif_pos hv]
    simp [Char.ofNatAux, Char.toNat, UInt32.toNat]
  · rw [if_neg ?hc, if_neg h]
    case hc => exact fun hcon => h ⟨hcon.1, hcon.2⟩

theorem toNat_toUpper (c : Char) :
    (Char.toUpper c).toNat =
      if 97 ≤ c.toNat ∧ c.toNat ≤ 122 then c.toNat - 32 else c.toNat := by
  unfold Char.toUpper
  by_cases h : 97 ≤ c.toNat ∧ c.toNat ≤ 122
  · have hv : (c.toNat - 32).isValidChar := Or.inl (by omega)
    rw [if_pos ⟨h.1, h.2⟩, if_pos h]
    unfold Char.ofNat
    rw [dif_pos hv]
    simp [Char.ofNatAux, Char.toNat, UInt32.toNat]
  · rw [if_neg ?hc, if_neg h]
    case hc => exact fun hcon => h ⟨hcon.1, hcon.2⟩

theorem toLower_toLower (c : Char) :
    Char.toLower (Char.toLower c) = Char.toLower c := by
  apply charEq_of_toNat
  simp only [toNat_toLower]
  split_ifs <;> omega

theorem toLower_toUpper (c : Char) :
    Char.toLower (Char.toUpper c) = Char.toLower c := by
  apply charEq_of_toNat
  simp only [toNat_toLower, toNat_toUpper]
  split_ifs <;> omega

theorem toUpper_toUpper (c : Char) :
    Char.toUpper (Char.toUpper c) = Char.toUpper c := by
  apply charEq_of_toNat
  simp only [toNat_toUpper]
  split_ifs <;> omega

theorem isSpace_toLower (c : Char) : isSpace (Char.toLower c) = isSpace c := by
  rw [Bool.eq_iff_iff]
  simp only [isSpace, Bool.or_eq_true, decide_eq_true_eq, toNat_toLower]
  split_ifs <;> omega

theorem isSpace_toUpper (c : Char) : isSpace (Char.toUpper c) = isSpace c := by
  rw [Bool.eq_iff_iff]
  simp only [isSpace, Bool.or_eq_true, decide_eq_true_eq, toNat_toUpper]
  split_ifs <;> omega

/-! ### Substring and lowering lemmas -/

theorem hasSub_iff {p s : Str} : hasSub p s = true ↔ p <:+: s := by
  induction s with
  | nil =>
    simp only [hasSub, List.isPrefixOf_iff_prefix]
    constructor
    · intro h
      exact h.isInfix
    · intro h
      rcases h with ⟨u, v, huv⟩
      have : u = [] ∧ p ++ v = [] := by
        constructor <;> [skip; skip] <;>
          · cases u <;> simp_all
      rcases this with ⟨rfl, h2⟩
      have : p = [] := by cases p <;> simp_all
      simp [this]
  | cons c cs ih =>
    simp only [hasSub, Bool.or_eq_true, List.isPrefixOf_iff_prefix, ih]
    constructor
    · rintro (h | h)
      · exact h.isInfix
      · exact List.infix_cons h
    · intro h
      exact (List.infix_cons_iff.mp h).imp id id

theorem contains_any_iff {T : List Str} {s : Str} :
    contains_any T s = true ↔ ∃ t ∈ T, t <:+: lower s := by
  simp only [contains_any, List.any_eq_true, hasSub_iff]

theorem lower_append (a b : Str) : lower (a ++ b) = lower a ++ lower b :=
  List.map_append _ _ _

theorem lower_lowerInv (s : Str) : LowerInv (lower s) := by
  intro c hc
  rcases List.mem_map.mp hc with ⟨d, _, rfl⟩
  exact toLower_toLower d

theorem lower_eq_self {s : Str} (h : LowerInv s) : lower s = s := by
  induction s with
  | nil => rfl
  | cons c cs ih =>
    have h1 := h c (List.mem_cons_self _ _)
    have h2 : LowerInv cs := fun d hd => h d (List.mem_cons_of_mem _ hd)
    simp [lower] at ih ⊢
    exact ⟨h1, ih h2⟩

theorem lower_capitalizeStr (s : Str) :
    lower (capitalizeStr s) = lower s := by
  cases s with
  | nil => rfl
  | cons c cs =>
    simp only [capitalizeStr, lower, List.map_cons, List.map_map]
    refine congrArg₂ _ (toLower_toUpper c) ?_
    apply List.map_congr_left
    intro d _
    exact toLower_toLower d

theorem capitalizeStr_length (s : Str) :
    (capitalizeStr s).length = s.length := by
  cases s <;> simp [capitalizeStr]

theorem capitalizeStr_append_dot {s : Str} (h : s ≠ []) :
    capitalizeStr (s ++ ['.']) = capitalizeStr s ++ ['.'] := by
  cases s with
  | nil => exact absurd rfl h
  | cons c cs =>
    simp only [capitalizeStr, List.cons_append, List.map_append]
    simp [show Char.toLower '.' = '.' from by decide]

theorem lowerInv_of_sublist {s t : Str} (hsub : List.Sublist t s)
    (h : LowerInv s) : LowerInv t := fun c hc => h c (hsub.mem hc)

theorem lowerInv_append {a b : Str} (ha : LowerInv a) (hb : LowerInv b) :
    LowerInv (a ++ b) := by
  intro c hc
  rcases List.mem_append.mp hc with h | h
  · exact ha c h
  · exact hb c h

/-! ### Whitespace normal forms -/

theorem mem_collapseWS :
    ∀ {s : Str} {c : Char}, c ∈ collapseWS s →
      c = ' ' ∨ (c ∈ s ∧ isSpace c = false) := by
  intro s
  induction s with
  | nil => intro c hc; simp [collapseWS] at hc
  | cons a t ih =>
    intro c hc
    cases t with
    | nil =>
      simp only [collapseWS] at hc
      by_cases ha : isSpace a = true
      · rw [if_pos ha] at hc
        simp at hc
        exact Or.inl hc
      · rw [if_neg ha] at hc
        simp at hc
        subst hc
        exact Or.inr ⟨List.mem_cons_self _ _, by simpa using ha⟩
    | cons d t2 =>
      simp only [collapseWS] at hc
      by_cases ha : isSpace a = true
      · rw [if_pos ha] at hc
        by_cases hd : isSpace d = true
        · rw [if_pos hd] at hc
          rcases ih hc with h | ⟨h1, h2⟩
          · exact Or.inl h
          · exact Or.inr ⟨List.mem_cons_of_mem _ h1, h2⟩
        · rw [if_neg hd] at hc
          rcases List.mem_cons.mp hc with rfl | hc2
          · exact Or.inl rfl
          · rcases ih hc2 with h | ⟨h1, h2⟩
            · exact Or.inl h
            · exact Or.inr ⟨List.mem_cons_of_mem _ h1, h2⟩
      · rw [if_neg ha] at hc
        rcases List.mem_cons.mp hc with rfl | hc2
        · exact Or.inr ⟨List.mem_cons_self _ _, by simpa using ha⟩
        · rcases ih hc2 with h | ⟨h1, h2⟩
          · exact Or.inl h
          · exact Or.inr ⟨List.mem_cons_of_mem _ h1, h2⟩

theorem collapseWS_head :
    ∀ {s : Str} {c : Char}, s.head? = some c →
      (collapseWS s).head? = some (if isSpace c then ' ' else c) := by
  intro s
  induction s with
  | nil => intro c hc; simp at hc
  | cons a t ih =>
    intro c hc
    simp only [List.head?_cons, Option.some_inj] at hc
    subst hc
    cases t with
    | nil =>
      simp only [collapseWS]
      by_cases ha : isSpace a = true
      · rw [if_pos ha, ha]; rfl
      · rw [if_neg ha, if_neg ha]; rfl
    | cons d t2 =>
      simp only [collapseWS]
      by_cases ha : isSpace a = true
      · rw [if_pos ha, ha, if_pos rfl]
        by_cases hd : isSpace d = true
        · rw [if_pos hd]
          have := @ih d rfl
          rw [this, if_pos hd]
        · rw [if_neg hd]; rfl
      · rw [if_neg ha, if_neg ha]; rfl

theorem plainWS_collapseWS (s : Str) : PlainWS (collapseWS s) := by
  intro c hc hsp
  rcases mem_collapseWS hc with h | ⟨_, h2⟩
  · exact h
  · rw [hsp] at h2; cases h2

theorem noTwoWS_collapseWS (s : Str) : NoTwoWS (collapseWS s) := by
  induction s with
  | nil => simp [collapseWS, NoTwoWS]
  | cons a t ih =>
    cases t with
    | nil =>
      simp only [collapseWS]
      by_cases ha : isSpace a = true
      · rw [if_pos ha]; simp [NoTwoWS]
      · rw [if_neg ha]; simp [NoTwoWS]
    | cons d t2 =>
      simp only [collapseWS]
      by_cases ha : isSpace a = true
      · rw [if_pos ha]
        by_cases hd : isSpace d = true
        · rw [if_pos hd]; exact ih
        · rw [if_neg hd]
          refine List.chain'_cons'.mpr ⟨?_, ih⟩
          intro b hb
          rw [@collapseWS_head (d :: t2) d rfl, if_neg hd] at hb
          injection hb with hb
          subst hb
          intro
          simpa using hd
      · rw [if_neg ha]
        refine List.chain'_cons'.mpr ⟨?_, ih⟩
        intro b hb
        intro hcon
        rw [hcon] at ha
        exact absurd rfl ha

theorem collapseWS_eq_self :
    ∀ {s : Str}, PlainWS s → NoTwoWS s → collapseWS s = s := by
  intro s
  induction s with
  | nil => intro _ _; rfl
  | cons a t ih =>
    intro hp hn
    cases t with
    | nil =>
      simp only [collapseWS]
      by_cases ha : isSpace a = true
      · rw [if_pos ha, hp a (List.mem_cons_self _ _) ha]
      · rw [if_neg ha]
    | cons d t2 =>
      have hp2 : PlainWS (d :: t2) := fun c hc h => hp c (List.mem_cons_of_mem _ hc) h
      have hn2 : NoTwoWS (d :: t2) := (List.chain'_cons'.mp hn).2
      simp only [collapseWS]
      by_cases ha : isSpace a = true
      · have hd : isSpace d = false := by
          have := (List.chain'_cons'.mp hn).1 d rfl
          exact this ha
        rw [if_pos ha, if_neg (by simp [hd]), ih hp2 hn2,
          hp a (List.mem_cons_self _ _) ha]
      · rw [if_neg ha, ih hp2 hn2]

theorem strip_sublist (s : Str) : List.Sublist (strip s) s := by
  unfold strip
  exact ( List.rdropWhile_prefix _ _).sublist.trans (List.dropWhile_sublist _)

theorem strip_infix_self (s : Str) : strip s <:+: s := by
  unfold strip
  exact (( List.rdropWhile_prefix _ _).isInfix).trans
    (List.dropWhile_suffix _).isInfix

theorem strip_eq_self {s : Str} (h1 : HeadNoWS s) (h2 : LastNoWS s) :
    strip s = s := by
  unfold strip
  have hd : s.dropWhile isSpace = s := by
    rw [List.dropWhile_eq_self_iff]
    intro hl
    have h0 : s.head? = some (s.get ⟨0, hl⟩) := by
      rw [List.head?_eq_getElem?]
      simp [List.getElem?_eq_getElem hl]
    have hsp := h1 _ h0
    simpa [List.get_eq_getElem] using hsp
  rw [hd, List.rdropWhile_eq_self_iff]
  intro hl
  have := h2 (s.getLast hl) (List.getLast?_eq_getLast _ hl)
  simp [this]

theorem headNoWS_strip (s : Str) : HeadNoWS (strip s) := by
  intro c hc
  unfold strip at hc
  have hpre := List.rdropWhile_prefix isSpace (s.dropWhile isSpace)
  rcases hpre with ⟨t, ht⟩
  have hne : (s.dropWhile isSpace).rdropWhile isSpace ≠ [] := by
    intro hcon; rw [hcon] at hc; simp at hc
  have hhead : (s.dropWhile isSpace).head? = some c := by
    rw [← ht]
    rcases hx : (s.dropWhile isSpace).rdropWhile isSpace with _ | ⟨a, u⟩
    · exact absurd hx hne
    · rw [hx] at hc
      injection hc with hc
      subst hc
      simp
  have := List.head?_dropWhile_not isSpace s
  rw [hhead] at this
  simpa using this

theorem lastNoWS_strip (s : Str) : LastNoWS (strip s) := by
  intro c hc
  unfold strip at hc
  have hne : (s.dropWhile isSpace).rdropWhile isSpace ≠ [] := by
    intro hcon; rw [hcon] at hc; simp at hc
  have := List.rdropWhile_last_not isSpace (s.dropWhile isSpace) hne
  rw [List.getLast?_eq_getLast _ hne] at hc
  injection hc with hc
  subst hc
  simpa using this

/-! ### Word-boundary substitution invariants -/

theorem getLast?_cons_of_getLast? {a : Char} {l : Str} {d : Char}
    (h : l.getLast? = some d) : (a :: l).getLast? = some d := by
  cases l with
  | nil => simp at h
  | cons b bs =>
    rw [← List.singleton_append, List.getLast?_append, h]
    rfl

theorem mem_wbSubAux {p r : Str} :
    ∀ {y : Str} {skip : Nat} {b : Bool} {c : Char},
      c ∈ wbSubAux p r skip b y → c ∈ r ∨ c ∈ y := by
  intro y
  induction y with
  | nil => intro skip b c hc; simp [wbSubAux] at hc
  | cons a y2 ih =>
    intro skip b c hc
    cases skip with
    | succ k =>
      simp only [wbSubAux] at hc
      rcases ih hc with h | h
      · exact Or.inl h
      · exact Or.inr (List.mem_cons_of_mem _ h)
    | zero =>
      simp only [wbSubAux] at hc
      split_ifs at hc with hcond
      · rcases List.mem_append.mp hc with h | h
        · exact Or.inl h
        · rcases ih h with h2 | h2
          · exact Or.inl h2
          · exact Or.inr (List.mem_cons_of_mem _ h2)
      · rcases List.mem_cons.mp hc with rfl | h
        · exact Or.inr (List.mem_cons_self _ _)
        · rcases ih h with h2 | h2
          · exact Or.inl h2
          · exact Or.inr (List.mem_cons_of_mem _ h2)

theorem wbSubAux_head0 {p r : Str} (hr : r ≠ []) {y : Str} {b : Bool} {d : Char}
    (h : (wbSubAux p r 0 b y).head? = some d) : d ∈ r ∨ y.head? = some d := by
  cases y with
  | nil => simp [wbSubAux] at h
  | cons a y2 =>
    simp only [wbSubAux] at h
    split_ifs at h with hcond
    · cases r with
      | nil => exact absurd rfl hr
      | cons r0 rs =>
        simp only [List.cons_append, List.head?_cons, Option.some_inj] at h
        subst h
        exact Or.inl (List.mem_cons_self _ _)
    · simp only [List.head?_cons, Option.some_inj] at h
      subst h
      exact Or.inr rfl

theorem wbSubAux_ne_nil {p r : Str} (hr : r ≠ []) {y : Str} {b : Bool}
    (hy : y ≠ []) : wbSubAux p r 0 b y ≠ [] := by
  cases y with
  | nil => exact absurd rfl hy
  | cons a y2 =>
    simp only [wbSubAux]
    split_ifs with hcond
    · simp [hr]
    · simp

theorem wbSubAux_getLast {p r : Str} (hr : r ≠ []) :
    ∀ {y : Str} {skip : Nat} {b : Bool} {d : Char},
      (wbSubAux p r skip b y).getLast? = some d →
      d ∈ r ∨ y.getLast? = some d := by
  intro y
  induction y with
  | nil => intro skip b d h; simp [wbSubAux] at h
  | cons a y2 ih =>
    intro skip b d h
    cases skip with
    | succ k =>
      simp only [wbSubAux] at h
      rcases ih h with h2 | h2
      · exact Or.inl h2
      · exact Or.inr (getLast?_cons_of_getLast? h2)
    | zero =>
      simp only [wbSubAux] at h
      split_ifs at h with hcond
      · rcases hrec : (wbSubAux p r (p.length - 1) (isWordChar a) y2).getLast? with _ | d2
        · rw [List.getLast?_append, hrec] at h
          simp only [Option.none_or] at h
          exact Or.inl (List.mem_of_getLast?_eq_some h)
        · rw [List.getLast?_append, hrec] at h
          simp only [Option.or_some] at h
          injection h with h
          subst h
          rcases ih hrec with h2 | h2
          · exact Or.inl h2
          · exact Or.inr (getLast?_cons_of_getLast? h2)
      · rcases hy2 : y2 with _ | ⟨b2, bs2⟩
        · subst hy2
          simp only [wbSubAux] at h
          simp only [List.getLast?_singleton, Option.some_inj] at h
          subst h
          exact Or.inr rfl
        · subst hy2
          have hne : wbSubAux p r 0 (isWordChar a) (b2 :: bs2) ≠ [] :=
            wbSubAux_ne_nil hr (by simp)
          rw [← List.singleton_append, List.getLast?_append] at h
          rcases hrec : (wbSubAux p r 0 (isWordChar a) (b2 :: bs2)).getLast? with _ | d2
          · rcases hx : wbSubAux p r 0 (isWordChar a) (b2 :: bs2) with _ | ⟨z, zs⟩
            · exact absurd hx hne
            · rw [hx] at hrec
              simp [List.getLast?_eq_getLast] at hrec
          · rw [hrec] at h
            simp only [Option.or_some] at h
            injection h with h
            subst h
            rcases ih hrec with h2 | h2
            · exact Or.inl h2
            · exact Or.inr (getLast?_cons_of_getLast? h2)

theorem wbSubAux_length_parity {p r : Str}
    (hpr : (p.length + r.length) % 2 = 0) :
    ∀ {y : Str} {skip : Nat} {b : Bool}, skip ≤ y.length →
      (wbSubAux p r skip b y).length % 2 = (y.length - skip) % 2 := by
  intro y
  induction y with
  | nil =>
    intro skip b hskip
    simp only [List.length_nil, Nat.le_zero] at hskip
    subst hskip
    simp [wbSubAux]
  | cons a y2 ih =>
    intro skip b hskip
    cases skip with
    | succ k =>
      simp only [wbSubAux]
      have hk : k ≤ y2.length := by
        simp only [List.length_cons] at hskip
        omega
      have := @ih k (isWordChar a) hk
      simp only [List.length_cons]
      omega
    | zero =>
      simp only [wbSubAux]
      split_ifs with hcond
      · have hple : p.length ≤ y2.length + 1 := by
          have hpre := List.isPrefixOf_iff_prefix.mp hcond.2.2.1
          have := hpre.length_le
          simpa using this
        have hp1 : 1 ≤ p.length := by
          have := hcond.1
          cases hp : p with
          | nil => exact absurd hp this
          | cons q qs => simp [hp]
        have hrec := @ih (p.length - 1) (isWordChar a) (by omega)
        simp only [List.length_append, List.length_cons]
        omega
      · have hrec := @ih 0 (isWordChar a) (Nat.zero_le _)
        simp only [List.length_cons]
        omega

theorem noTwoWS_of_forall_nonspace {l : Str}
    (h : ∀ c ∈ l, isSpace c = false) : NoTwoWS l := by
  induction l with
  | nil => simp [NoTwoWS]
  | cons a t ih =>
    refine List.chain'_cons'.mpr ⟨?_, ih fun c hc => h c (List.mem_cons_of_mem _ hc)⟩
    intro b _ hsp
    rw [h a (List.mem_cons_self _ _)] at hsp
    cases hsp

theorem noTwoWS_wbSubAux {p r : Str} (hr : r ≠ [])
    (hrs : ∀ c ∈ r, isSpace c = false) :
    ∀ {y : Str} {skip : Nat} {b : Bool}, NoTwoWS y →
      NoTwoWS (wbSubAux p r skip b y) := by
  intro y
  induction y with
  | nil => intro skip b _; simp [wbSubAux, NoTwoWS]
  | cons a y2 ih =>
    intro skip b hy
    have hy2 : NoTwoWS y2 := (List.chain'_cons'.mp hy).2
    cases skip with
    | succ k =>
      simp only [wbSubAux]
      exact ih hy2
    | zero =>
      simp only [wbSubAux]
      split_ifs with hcond
      · refine List.chain'_append.mpr ⟨noTwoWS_of_forall_nonspace hrs, ih hy2, ?_⟩
        intro x hx z _ hsp
        have hxr : x ∈ r := List.mem_of_getLast?_eq_some hx
        rw [hrs x hxr] at hsp
        cases hsp
      · refine List.chain'_cons'.mpr ⟨?_, ih hy2⟩
        intro z hz hsp
        rcases wbSubAux_head0 hr hz with h1 | h1
        · exact hrs z h1
        · exact (List.chain'_cons'.mp hy).1 z h1 hsp

theorem plainWS_wbSubAux {p r : Str} (hrs : ∀ c ∈ r, isSpace c = false)
    {y : Str} {skip : Nat} {b : Bool} (hy : PlainWS y) :
    PlainWS (wbSubAux p r skip b y) := by
  intro c hc hsp
  rcases mem_wbSubAux hc with h | h
  · rw [hrs c h] at hsp; cases hsp
  · exact hy c h hsp

theorem lowerInv_wbSubAux {p r : Str} (hrl : LowerInv r)
    {y : Str} {skip : Nat} {b : Bool} (hy : LowerInv y) :
    LowerInv (wbSubAux p r skip b y) := by
  intro c hc
  rcases mem_wbSubAux hc with h | h
  · exact hrl c h
  · exact hy c h

theorem headNoWS_wbSub {p r : Str} (hr : r ≠ [])
    (hrs : ∀ c ∈ r, isSpace c = false) {y : Str} (hy : HeadNoWS y) :
    HeadNoWS (wbSub p r y) := by
  intro c hc
  rcases wbSubAux_head0 hr hc with h | h
  · exact hrs c h
  · exact hy c h

theorem lastNoWS_wbSub {p r : Str} (hr : r ≠ [])
    (hrs : ∀ c ∈ r, isSpace c = false) {y : Str} (hy : LastNoWS y) :
    LastNoWS (wbSub p r y) := by
  intro c hc
  rcases wbSubAux_getLast hr hc with h | h
  · exact hrs c h
  · exact hy c h

theorem wbSub_length_parity {p r : Str}
    (hpr : (p.length + r.length) % 2 = 0) (y : Str) :
    (wbSub p r y).length % 2 = y.length % 2 := by
  have := @wbSubAux_length_parity p r hpr y 0 false (Nat.zero_le _)
  simpa using this

/-! ### Shape of accepted canonical statements -/

theorem acceptStage_shape {s : Str} (h : acceptStage s ≠ []) :
    acceptStage s = capitalizeStr s ++ ['.'] ∧
      contains_any ITEM_TERMS s = true ∧
      (contains_any PAIRING_VERBS s = true ∨
        contains_any LAYER_TERMS s = true) := by
  unfold acceptStage at h ⊢
  split_ifs at h ⊢ with h1 h2
  · exact ⟨rfl, h1.2, Or.inl h1.1⟩
  · exact ⟨rfl, h2.2, Or.inr h2.1⟩
  · exact absurd rfl h

theorem canonicalize_shape {sentence : Str}
    (h : canonicalize_sentence sentence ≠ []) :
    canonicalize_sentence sentence =
        capitalizeStr (canonCore sentence) ++ ['.'] ∧
      contains_any ITEM_TERMS (canonCore sentence) = true ∧
      (contains_any PAIRING_VERBS (canonCore sentence) = true ∨
        contains_any LAYER_TERMS (canonCore sentence) = true) := by
  by_cases hacc :
      contains_any ACCESSORY_TERMS (lower (stripHeading (strip sentence))) = true ∧
        ¬ contains_any ITEM_TERMS (lower (stripHeading (strip sentence))) = true
  · exfalso
    apply h
    simp only [canonicalize_sentence]
    rw [if_pos hacc]
  · have hcanon : canonicalize_sentence sentence =
        acceptStage (canonCore sentence) := by
      simp only [canonicalize_sentence, canonCore]
      rw [if_neg hacc]
    rw [hcanon] at h ⊢
    exact acceptStage_shape h

theorem plainWS_strip {s : Str} (h : PlainWS s) : PlainWS (strip s) :=
  fun c hc hsp => h c ((strip_sublist s).mem hc) hsp

theorem canonCore_wellSpaced (sentence : Str) :
    PlainWS (canonCore sentence) ∧ NoTwoWS (canonCore sentence) ∧
      HeadNoWS (canonCore sentence) ∧ LastNoWS (canonCore sentence) := by
  refine ⟨?_, ?_, ?_, ?_⟩
  · exact plainWS_strip (plainWS_collapseWS _)
  · exact List.Chain'.infix (noTwoWS_collapseWS _) (strip_infix_self _)
  · exact headNoWS_strip _
  · exact lastNoWS_strip _

theorem lowerInv_canonCore (sentence : Str) : LowerInv (canonCore sentence) := by
  unfold canonCore
  have hin : LowerInv (lower (stripHeading (strip sentence))) := lower_lowerInv _
  have h1 : LowerInv (wbSub (str "baggy") (str "oversized")
      (lower (stripHeading (strip sentence)))) :=
    lowerInv_wbSubAux (show ∀ c ∈ str "oversized", Char.toLower c = c by decide) hin
  have h2 : LowerInv (wbSub (str "loose") (str "relaxed")
      (wbSub (str "baggy") (str "oversized")
        (lower (stripHeading (strip sentence))))) :=
    lowerInv_wbSubAux (show ∀ c ∈ str "relaxed", Char.toLower c = c by decide) h1
  have h3 : LowerInv (substituteAll (lower (stripHeading (strip sentence)))) :=
    lowerInv_wbSubAux (show ∀ c ∈ str "slim", Char.toLower c = c by decide) h2
  have h4 : LowerInv (collapseWS
      (substituteAll (lower (stripHeading (strip sentence))))) := by
    intro c hc
    rcases mem_collapseWS hc with rfl | ⟨hmem, _⟩
    · decide
    · exact h3 c hmem
  exact lowerInv_of_sublist (strip_sublist _) h4

theorem canonCore_ne_nil {sentence : Str}
    (hitem : contains_any ITEM_TERMS (canonCore sentence) = true) :
    canonCore sentence ≠ [] := by
  intro hnil
  rcases contains_any_iff.mp hitem with ⟨t, htmem, hinf⟩
  rw [hnil] at hinf
  have ht : t = [] := by
    have := hinf.sublist
    simpa [lower] using this
  subst ht
  revert htmem
  decide

theorem contains_any_append_dot {T : List Str} {x : Str}
    (h : contains_any T x = true) :
    contains_any T (x ++ ['.']) = true := by
  rcases contains_any_iff.mp h with ⟨t, htmem, hinf⟩
  refine contains_any_iff.mpr ⟨t, htmem, ?_⟩
  rw [lower_append]
  exact hinf.trans (List.prefix_append _ _).isInfix

/-- C4 counterexample: an accepted sentence starting with a digit keeps the
digit as its first character, which is not an uppercase letter. -/
theorem C4_counterexample_digit_start :
    canonicalize_sentence (str "1 wear jeans") ≠ [] ∧
      (canonicalize_sentence (str "1 wear jeans")).head? = some '1' ∧
      Char.isUpper '1' = false := by decide

/-- C4 amended: every non-empty output of `canonicalize_sentence` ends with a
period, starts with a character that is fixed by upper-casing (so a letter
there is uppercase, but a digit or symbol is allowed), and contains a
clothing-item term. -/
theorem C4_amended_accepted_statement_shape (sentence : Str)
    (h : canonicalize_sentence sentence ≠ []) :
    (canonicalize_sentence sentence).getLast? = some '.' ∧
      (∃ d, (canonicalize_sentence sentence).head? = some d ∧
        Char.toUpper d = d) ∧
      contains_any ITEM_TERMS (canonicalize_sentence sentence) = true := by
  obtain ⟨hc, hitem, _⟩ := canonicalize_shape h
  have hne := canonCore_ne_nil hitem
  refine ⟨?_, ?_, ?_⟩
  · rw [hc, List.getLast?_append]
    rfl
  · rcases hx : canonCore sentence with _ | ⟨x0, xs⟩
    · exact absurd hx hne
    · refine ⟨Char.toUpper x0, ?_, toUpper_toUpper x0⟩
      rw [hc, hx]
      rfl
  · rw [hc]
    have : contains_any ITEM_TERMS (capitalizeStr (canonCore sentence)) = true := by
      rcases contains_any_iff.mp hitem with ⟨t, htmem, hinf⟩
      refine contains_any_iff.mpr ⟨t, htmem, ?_⟩
      rw [lower_capitalizeStr]
      exact hinf
    exact contains_any_append_dot this

/-- C4 witness: a concrete accepted sentence. -/
theorem C4_witness :
    (canonicalize_sentence (str "wear jeans now")).getLast? = some '.' ∧
      (∃ d, (canonicalize_sentence (str "wear jeans now")).head? = some d ∧
        Char.toUpper d = d) ∧
      contains_any ITEM_TERMS (canonicalize_sentence (str "wear jeans now")) = true :=
  C4_amended_accepted_statement_shape _ (by decide)

/-! ### Re-canonicalization (C3) -/

theorem plainWS_append_dot {x : Str} (h : PlainWS x) : PlainWS (x ++ ['.']) := by
  intro c hc hsp
  rcases List.mem_append.mp hc with h1 | h1
  · exact h c h1 hsp
  · simp at h1
    subst h1
    cases hsp

theorem noTwoWS_append_dot {x : Str} (h : NoTwoWS x) : NoTwoWS (x ++ ['.']) := by
  refine List.chain'_append.mpr ⟨h, ?_, ?_⟩
  · simp [NoTwoWS]
  · intro a _ z hz hsp
    simp only [List.head?_cons, Option.mem_def, Option.some_inj] at hz
    subst hz
    decide

theorem headNoWS_append_dot {x : Str} (h : HeadNoWS x) :
    HeadNoWS (x ++ ['.']) := by
  intro c hc
  cases x with
  | nil =>
    simp at hc
    subst hc
    decide
  | cons a t =>
    simp only [List.cons_append, List.head?_cons, Option.some_inj] at hc
    subst hc
    exact h a rfl

theorem lastNoWS_append_dot (x : Str) : LastNoWS (x ++ ['.']) := by
  intro c hc
  rw [List.getLast?_append] at hc
  simp only [List.getLast?_singleton, Option.or_some, Option.some_inj] at hc
  subst hc
  decide

theorem substituteAll_wellSpaced {w : Str} (hp : PlainWS w) (hn : NoTwoWS w)
    (hh : HeadNoWS w) (hl : LastNoWS w) :
    PlainWS (substituteAll w) ∧ NoTwoWS (substituteAll w) ∧
      HeadNoWS (substituteAll w) ∧ LastNoWS (substituteAll w) := by
  have ho : ∀ c ∈ str "oversized", isSpace c = false := by decide
  have hrx : ∀ c ∈ str "relaxed", isSpace c = false := by decide
  have hsl : ∀ c ∈ str "slim", isSpace c = false := by decide
  have ho1 : str "oversized" ≠ [] := by decide
  have hr1 : str "relaxed" ≠ [] := by decide
  have hs1 : str "slim" ≠ [] := by decide
  unfold substituteAll
  refine ⟨?_, ?_, ?_, ?_⟩
  · exact plainWS_wbSubAux hsl (plainWS_wbSubAux hrx (plainWS_wbSubAux ho hp))
  · exact noTwoWS_wbSubAux hs1 hsl
      (noTwoWS_wbSubAux hr1 hrx (noTwoWS_wbSubAux ho1 ho hn))
  · exact headNoWS_wbSub hs1 hsl
      (headNoWS_wbSub hr1 hrx (headNoWS_wbSub ho1 ho hh))
  · exact lastNoWS_wbSub hs1 hsl
      (lastNoWS_wbSub hr1 hrx (lastNoWS_wbSub ho1 ho hl))

theorem substituteAll_parity (w : Str) :
    (substituteAll w).length % 2 = w.length % 2 := by
  unfold substituteAll
  rw [wbSub_length_parity (by decide), wbSub_length_parity (by decide),
    wbSub_length_parity (by decide)]

theorem canonicalize_eval {t u : Str} (hstrip : strip t = t)
    (hhead : stripHeading t = t) (hlow : lower t = u)
    (hnacc : ¬(contains_any ACCESSORY_TERMS u = true ∧
      ¬ contains_any ITEM_TERMS u = true)) :
    canonicalize_sentence t =
      acceptStage (strip (collapseWS (substituteAll u))) := by
  simp only [canonicalize_sentence]
  rw [hstrip, hhead, hlow, if_neg hnacc]

/-- C3 counterexample: canonicalization is not idempotent; re-canonicalizing
an accepted output appends a second terminal period. -/
theorem C3_counterexample_not_idempotent :
    canonicalize_sentence (str "wear jeans today okay") =
      str "Wear jeans today okay." ∧
    canonicalize_sentence (canonicalize_sentence (str "wear jeans today okay")) =
      str "Wear jeans today okay.." ∧
    canonicalize_sentence (canonicalize_sentence (str "wear jeans today okay")) ≠
      canonicalize_sentence (str "wear jeans today okay") := by decide

set_option maxHeartbeats 2000000 in
/-- C3 amended: canonicalization is never idempotent on a colon-free accepted
output: re-canonicalizing it yields a different statement (the text is
re-accepted with a second terminal period appended, or rejected outright, or
rewritten further by the substitutions; a parity argument on lengths shows the
result can never equal the input). -/
theorem C3_amended_not_idempotent (sentence : Str)
    (h : canonicalize_sentence sentence ≠ [])
    (hcolon : ':' ∉ canonicalize_sentence sentence) :
    canonicalize_sentence (canonicalize_sentence sentence) ≠
      canonicalize_sentence sentence := by
  obtain ⟨hc, hitem, _⟩ := canonicalize_shape h
  have hne : canonCore sentence ≠ [] := canonCore_ne_nil hitem
  obtain ⟨hwp, hwn, hwh, hwl⟩ := canonCore_wellSpaced sentence
  have hlow := lowerInv_canonCore sentence
  have hstripc : strip (canonicalize_sentence sentence) =
      canonicalize_sentence sentence := by
    apply strip_eq_self
    · intro d hd
      rw [hc] at hd
      rcases hx : canonCore sentence with _ | ⟨x0, xs⟩
      · exact absurd hx hne
      · rw [hx] at hd
        simp only [capitalizeStr, List.cons_append, List.head?_cons,
          Option.some_inj] at hd
        subst hd
        rw [isSpace_toUpper]
        exact hwh x0 (by rw [hx]; rfl)
    · intro d hd
      rw [hc, List.getLast?_append] at hd
      simp only [List.getLast?_singleton, Option.or_some, Option.some_inj] at hd
      subst hd
      decide
  have hsh : stripHeading (canonicalize_sentence sentence) =
      canonicalize_sentence sentence := by
    unfold stripHeading
    rw [if_neg hcolon]
  have hlowc : lower (canonicalize_sentence sentence) =
      canonCore sentence ++ ['.'] := by
    rw [hc, lower_append, lower_capitalizeStr, lower_eq_self hlow]
    rfl
  have hitem2 : contains_any ITEM_TERMS (canonCore sentence ++ ['.']) = true :=
    contains_any_append_dot hitem
  have hnacc : ¬(contains_any ACCESSORY_TERMS (canonCore sentence ++ ['.']) = true ∧
      ¬ contains_any ITEM_TERMS (canonCore sentence ++ ['.']) = true) :=
    fun hcon => hcon.2 hitem2
  have hcc : canonicalize_sentence (canonicalize_sentence sentence) =
      acceptStage (strip (collapseWS
        (substituteAll (canonCore sentence ++ ['.'])))) :=
    canonicalize_eval hstripc hsh hlowc hnacc
  obtain ⟨hsp, hsn, hshh, hsll⟩ := substituteAll_wellSpaced
    (plainWS_append_dot hwp) (noTwoWS_append_dot hwn)
    (headNoWS_append_dot hwh) (lastNoWS_append_dot _)
  have hz : strip (collapseWS (substituteAll (canonCore sentence ++ ['.']))) =
      substituteAll (canonCore sentence ++ ['.']) := by
    rw [collapseWS_eq_self hsp hsn]
    exact strip_eq_self hshh hsll
  have hpar : (substituteAll (canonCore sentence ++ ['.'])).length % 2 =
      ((canonCore sentence).length + 1) % 2 := by
    rw [substituteAll_parity]
    simp
  rw [hcc, hz]
  intro hcontra
  by_cases hz0 : acceptStage (substituteAll (canonCore sentence ++ ['.'])) = []
  · rw [hz0] at hcontra
    exact h hcontra.symm
  · obtain ⟨hz1, _, _⟩ := acceptStage_shape hz0
    rw [hz1, hc] at hcontra
    have hlen := congrArg List.length hcontra
    simp only [List.length_append, capitalizeStr_length,
      List.length_singleton] at hlen
    omega

/-- C3 witness: a concrete colon-free accepted output. -/
theorem C3_witness :
    canonicalize_sentence (canonicalize_sentence (str "combine a tee with joggers")) ≠
      canonicalize_sentence (str "combine a tee with joggers") :=
  C3_amended_not_idempotent _ (by decide) (by decide)
